import Mathlib

/-!
# Weather dashboard data pipeline: a verification development

Shallow embedding of the data-normalization and time-series reconstruction
pipeline of `weather_dashboard.py`: column-label cleaning and deduplication
(`deduplicate_columns`), numeric type coercion (`pd.to_numeric` with
`errors='coerce'`), day-first timestamp assembly (`pd.to_datetime` with
`dayfirst=True, errors='coerce'`), index sorting (`sort_index`), and the
gap-marker insertion loop that precedes charting.

Timestamps are modelled as integers counting seconds; the 2-hour gap
threshold is 7200 and the one-second marker offset is 1.  DataFrames are
modelled as a header (list of column labels) together with a list of rows;
after the datetime index is built, each row is keyed by its integer
timestamp.  `DataFrame.sort_index()` guarantees only a sorted permutation
of the rows: its default `kind='quicksort'` is numpy's introsort, which is
not stable, so no tie-order is promised.  Properties of the index build
are therefore proven against exactly that contract (`sort_contract`),
quantified over every sort satisfying it; the executable model `sortRows`
is one such implementation (`List.insertionSort`), and its concrete tie
order is relied on only at a two-row input, where numpy's introsort
provably runs its insertion-sort branch and agrees with it.
-/

/-! ## Basic character-list utilities -/

/-- Python `str.strip()`: drop leading and trailing whitespace characters. -/
def stripChars (l : List Char) : List Char :=
  ((l.dropWhile Char.isWhitespace).reverse.dropWhile Char.isWhitespace).reverse

/-- Lower-case every character (used for case-insensitive float spellings). -/
def lowerChars (l : List Char) : List Char :=
  l.map Char.toLower

/-- Decimal value of a digit string (callers check `Char.isDigit` first). -/
def digitsToNat (l : List Char) : Nat :=
  l.foldl (fun a c => 10 * a + (c.toNat - 48)) 0

/-- Split a character list at every occurrence of the separator `c`,
like Python `str.split(c)`.  Always returns at least one piece. -/
def splitChar (c : Char) : List Char → List (List Char)
  | [] => [[]]
  | ch :: rest =>
    let r := splitChar c rest
    if ch = c then [] :: r
    else
      match r with
      | [] => [[ch]]
      | h :: t => (ch :: h) :: t

/-- Parse a nonempty all-digit string as a natural number. -/
def parseNatStrict (l : List Char) : Option Nat :=
  if l ≠ [] ∧ l.all Char.isDigit then some (digitsToNat l) else none

/-- Leading sign of a numeric literal: `true` means negative.  Consumes at
most one `+`/`-`. -/
def splitSign : List Char → Bool × List Char
  | '-' :: r => (true, r)
  | '+' :: r => (false, r)
  | l => (false, l)

/-! ## ColumnNormalizer

`weather_dashboard.py` lines 41-42: the raw header is cleaned by
`df.columns.str.strip().str.replace('.', '', regex=False)` and then passed
through `deduplicate_columns` (lines 10-24). -/

/-- Cleaning of one raw column label: strip surrounding whitespace, then
remove every literal period character (single-character non-regex
`str.replace('.', '')` removes all occurrences). -/
def clean_column (s : String) : String :=
  ⟨(stripChars s.data).filter (fun c => c ≠ '.')⟩

/-- The loop body of `deduplicate_columns`.  The Python dict
`counts` maps each label to the number of times it has been processed so
far, which equals the count of that label in the list `seen` of previously
processed labels; `counts.get(col, 0) > 0` selects the suffixed spelling
`f"{col}_{cur_count}"`. -/
def dedup_go (seen : List String) : List String → List String
  | [] => []
  | c :: rest =>
    (if seen.count c = 0 then c else c ++ "_" ++ Nat.repr (seen.count c)) ::
      dedup_go (seen ++ [c]) rest

/-- `deduplicate_columns` of `weather_dashboard.py` (lines 10-24). -/
def deduplicate_columns (cols : List String) : List String :=
  dedup_go [] cols

/-- The full column normalization of lines 41-42: clean every label, then
deduplicate. -/
def normalizeColumns (cols : List String) : List String :=
  deduplicate_columns (cols.map clean_column)

/-- No cleaned label spells another cleaned label with a synthesized
`_n` suffix attached (`n` positive; counts never exceed the list length,
so bounding `n` by the length loses nothing).  This is the documented
limitation of the deduplicator: a genuine `"Temp_1"` column can collide
with a synthesized one. -/
def suffix_free (l : List String) : Prop :=
  ∀ c ∈ l, ∀ d ∈ l, ∀ n ∈ List.range (l.length + 1), 0 < n → c ≠ d ++ "_" ++ Nat.repr n

/-! ## TypeCoercer

Lines 45-51: `pd.to_numeric(df[col], errors='coerce')` over a fixed
allow-list of measurement columns. -/

/-- Result of parsing one cell as a float: a finite value (represented
exactly as a rational; rounding of finite values is irrelevant to every
property below), or an infinity from an `inf`/`infinity` spelling.
A cell that fails to parse (or spells `nan`) becomes missing (`none`),
never an error, mirroring `errors='coerce'`. -/
inductive NumVal where
  | fin (q : ℚ)
  | pinf
  | ninf
deriving DecidableEq

/-- A cell value after type coercion: an untouched raw string, a parsed
number, or missing (`NaN`). -/
inductive Value where
  | str (s : String)
  | num (v : NumVal)
  | na
deriving DecidableEq

/-- Finite part of a parsed float: integer digits `ip`, fraction digits
`fp`, decimal exponent `e` (negated when `eneg`), overall sign `neg`. -/
def finVal (neg : Bool) (ip fp : List Char) (e : Nat) (eneg : Bool) : ℚ :=
  let m : Int := ((digitsToNat ip * 10 ^ fp.length + digitsToNat fp : Nat) : Int)
  let m : Int := if neg then -m else m
  if eneg then mkRat m (10 ^ fp.length * 10 ^ e)
  else mkRat (m * 10 ^ e) (10 ^ fp.length)

/-- One cell of `pd.to_numeric(·, errors='coerce')`: whitespace-trimmed,
locale-neutral float parsing.  Accepts an optional sign, decimal digits
with an optional point and an optional `e`/`E` exponent, and the
case-insensitive spellings `inf`/`infinity` (signed) and `nan`; anything
else coerces to missing (`none`). -/
def to_numeric_cell (s : String) : Option NumVal :=
  let l := stripChars s.data
  let (neg, body) := splitSign l
  let lb := lowerChars body
  if lb = "inf".data ∨ lb = "infinity".data then
    some (if neg then NumVal.ninf else NumVal.pinf)
  else if lb = "nan".data then
    none
  else
    let mant := body.takeWhile (fun c => c ≠ 'e' ∧ c ≠ 'E')
    let rest := body.dropWhile (fun c => c ≠ 'e' ∧ c ≠ 'E')
    let ip := mant.takeWhile (fun c => c ≠ '.')
    let fp := (mant.dropWhile (fun c => c ≠ '.')).drop 1
    if ip.all Char.isDigit ∧ fp.all Char.isDigit ∧ (ip ≠ [] ∨ fp ≠ []) then
      match rest with
      | [] => some (NumVal.fin (finVal neg ip fp 0 false))
      | _ :: ex =>
        let (eneg, eds) := splitSign ex
        if eds ≠ [] ∧ eds.all Char.isDigit then
          some (NumVal.fin (finVal neg ip fp (digitsToNat eds) eneg))
        else none
    else none

/-- The fixed allow-list of measurement columns (line 45-47). -/
def numeric_cols : List String :=
  ["Out Temp", "Temp", "Hum", "Pt", "Speed", "Bar", "Rain", "Rad", "Rate"]

/-- Coerce one cell: columns on the allow-list get `to_numeric`, all other
columns pass through as raw strings.  The per-column loop
`for col in numeric_cols: if col in df.columns: ...` touches exactly the
cells whose (unique, deduplicated) column name is on the allow-list. -/
def coerceCell (name cell : String) : Value :=
  if name ∈ numeric_cols then
    match to_numeric_cell cell with
    | some v => Value.num v
    | none => Value.na
  else Value.str cell

/-- Coerce one row, reshaped to the header width (pandas keys every row by
the header; a missing trailing cell reads as `NaN`, here the empty string,
which coerces to missing). -/
def coerceRow (cols : List String) (r : List String) : List Value :=
  (List.range cols.length).map (fun i => coerceCell (cols.getD i "") (r.getD i ""))

/-- Lines 49-51 applied to the whole table. -/
def coerceTable (cols : List String) (rows : List (List String)) : List (List Value) :=
  rows.map (coerceRow cols)

/-- The spec's per-cell predicate for coerced measurement cells: a finite
float or missing. -/
def finite_or_missingB : Value → Bool
  | Value.num (NumVal.fin _) => true
  | Value.na => true
  | _ => false

/-! ## TimeIndexBuilder

Lines 54-59: build `df['datetime']` from the `Date` and `Time` columns
with `pd.to_datetime(date + ' ' + time, errors='coerce', dayfirst=True)`,
drop rows whose combined text fails to parse, set the result as the index
and sort it. -/

/-- A parsed calendar timestamp (minute resolution, as in the export). -/
structure DateTime where
  year : Nat
  month : Nat
  day : Nat
  hour : Nat
  minute : Nat
deriving DecidableEq

/-- Two-digit years expand to the current century the way
`dateutil` does: `00`-`68` → `20xx`, `69`-`99` → `19xx`. -/
def yearExpand (y : Nat) : Nat :=
  if y < 100 then (if y ≤ 68 then 2000 + y else 1900 + y) else y

/-- `pd.to_datetime(·, errors='coerce', dayfirst=True)` for the export's
`d/m/y h:mm` shape: the first date field is the day and the second the
month (day-first convention), with range validation; any failure yields
`none` (`NaT`). -/
def to_datetime (s : String) : Option DateTime :=
  match splitChar ' ' s.data with
  | [datePart, timePart] =>
    match splitChar '/' datePart, splitChar ':' timePart with
    | [ds, ms, ys], [hs, mins] =>
      match parseNatStrict ds, parseNatStrict ms, parseNatStrict ys,
            parseNatStrict hs, parseNatStrict mins with
      | some d, some m, some y, some h, some mi =>
        if 1 ≤ m ∧ m ≤ 12 ∧ 1 ≤ d ∧ d ≤ 31 ∧ h ≤ 23 ∧ mi ≤ 59 then
          some { year := yearExpand y, month := m, day := d, hour := h, minute := mi }
        else none
      | _, _, _, _, _ => none
    | _, _ => none
  | _ => none

/-- Injective, lexicographically monotone encoding of a timestamp as
seconds (mixed-radix over year/month/day/hour/minute). -/
def dtKey (dt : DateTime) : Int :=
  (((((dt.year * 12 + (dt.month - 1)) * 31 + (dt.day - 1)) * 24 + dt.hour) * 60
      + dt.minute) * 60 : Nat)

/-- A time-indexed observation series: the normalized header, and rows
each keyed by an integer timestamp. -/
structure Series where
  cols : List String
  rows : List (Int × List Value)
deriving DecidableEq

/-- Index order on keyed rows: compare timestamps. -/
def keyLe (a b : Int × List Value) : Prop :=
  a.1 ≤ b.1

instance : DecidableRel keyLe :=
  fun a b => Int.decLe a.1 b.1

instance : IsTotal (Int × List Value) keyLe :=
  ⟨fun a b => Int.le_total a.1 b.1⟩

instance : IsTrans (Int × List Value) keyLe :=
  ⟨fun _ _ _ h₁ h₂ => le_trans h₁ h₂⟩

/-- An executable model of `DataFrame.sort_index()`.  The program's sort
(default `kind='quicksort'`, numpy introsort) guarantees only a sorted
permutation of the rows and fixes no order among tied timestamps;
`sort_contract` below captures exactly that guarantee, and the theorems
about the index build are stated over every sort honouring it.  This
concrete implementation is one of them; its specific tie order is relied
on only for two-row inputs, where numpy's introsort runs its
insertion-sort branch and behaves identically. -/
def sortRows (l : List (Int × List Value)) : List (Int × List Value) :=
  List.insertionSort keyLe l

/-- The contract `DataFrame.sort_index()` honours for every `kind`: the
result is sorted by timestamp and is a permutation of the input rows.
Nothing further — in particular no tie-order stability — is guaranteed
by the default `kind='quicksort'`. -/
def sort_contract (f : List (Int × List Value) → List (Int × List Value)) : Prop :=
  ∀ l, List.Sorted keyLe (f l) ∧ List.Perm (f l) l

/-- Position of a (unique, deduplicated) column name in the header. -/
def colIndex (cols : List String) (name : String) : Nat :=
  cols.indexOf name

/-- `df[name]` for one row (missing cells read as `NaN`). -/
def cellAt (cols : List String) (row : List Value) (name : String) : Value :=
  row.getD (colIndex cols name) Value.na

/-- `astype(str)` rendering of a cell; the `Date`/`Time` columns are never
on the numeric allow-list, so only the string and missing cases are
reachable there (`NaN` renders as `"nan"`, which fails to parse). -/
def valueStr : Value → String
  | Value.str s => s
  | Value.num _ => "num"
  | Value.na => "nan"

/-- `df['Date'].astype(str) + ' ' + df['Time'].astype(str)` for one row. -/
def combinedText (cols : List String) (row : List Value) : String :=
  valueStr (cellAt cols row "Date") ++ " " ++ valueStr (cellAt cols row "Time")

/-- The derived timestamp of one row, if its combined text parses. -/
def rowKey (cols : List String) (row : List Value) : Option Int :=
  (to_datetime (combinedText cols row)).map dtKey

/-- Rows surviving `dropna(subset=['datetime'])`, keyed by timestamp, in
original order. -/
def parsedRows (cols : List String) (rows : List (List Value)) :
    List (Int × List Value) :=
  rows.filterMap (fun r => (rowKey cols r).map (fun k => (k, r)))

/-- Lines 56-59: parse, drop unparsable rows, index, sort. -/
def timeIndexBuild (cols : List String) (rows : List (List Value)) :
    List (Int × List Value) :=
  sortRows (parsedRows cols rows)

/-! ## The load function -/

/-- A raw table as produced by `pd.read_csv`: header labels and rows of
string cells. -/
structure RawTable where
  header : List String
  rows : List (List String)

/-- Body of `load_data_from_github` after `read_csv` (lines 40-64):
normalize the header, coerce the numeric columns, then build the datetime
index; absence of the `Date` or `Time` column aborts with no series
(`st.error` plus `return None`). -/
def loadTable (t : RawTable) : Option Series :=
  let cols := normalizeColumns t.header
  if "Date" ∈ cols ∧ "Time" ∈ cols then
    some { cols := cols, rows := timeIndexBuild cols (coerceTable cols t.rows) }
  else none

/-- `pd.read_csv` on the fetched payload, at the fidelity the pipeline
needs: the first non-blank line is the header, commas separate cells, a
data row with more fields than the header raises `ParserError`, shorter
rows are padded with missing cells, and an empty payload raises
`EmptyDataError`. -/
def readCsv (text : String) : Except String RawTable :=
  match (splitChar '\n' text.data).filter (fun l => l ≠ []) with
  | [] => Except.error "EmptyDataError: no columns to parse from file"
  | h :: dataLines =>
    let header := (splitChar ',' h).map (fun l => (⟨l⟩ : String))
    let rows := dataLines.map (fun l => (splitChar ',' l).map (fun c => (⟨c⟩ : String)))
    if rows.all (fun r => r.length ≤ header.length) then
      Except.ok { header := header
                  rows := rows.map (fun r => r ++ List.replicate (header.length - r.length) "") }
    else Except.error "ParserError: error tokenizing data"

/-- Everything inside the `try` of `load_data_from_github`: a raised
exception surfaces as `Except.error`. -/
def load_body (text : String) : Except String (Option Series) :=
  (readCsv text).map loadTable

/-- `load_data_from_github` (lines 34-68): the whole body runs inside
`try`/`except Exception`, which turns any raised error into `st.error`
plus `return None`.  The network fetch is the external collaborator; the
function is modelled on the fetched CSV payload. -/
def load_data_from_github (text : String) : Option Series :=
  match load_body text with
  | Except.error _ => none
  | Except.ok r => r

/-! ## GapSegmenter

Lines 107-121: copy the frame, find the index positions whose backward
time difference exceeds two hours, and for each insert an all-`NA` row
timestamped one second earlier, re-sorting after each insertion. -/

/-- `gap_threshold = pd.Timedelta(hours=2)`, in seconds. -/
def gap_threshold : Int := 2 * 60 * 60

/-- `pd.Timedelta(seconds=1)`, in seconds. -/
def oneSecond : Int := 1

/-- `pd.DataFrame([pd.NA] * len(df_plot.columns)).T`: one row of missing
values, one per column. -/
def naRow (cols : List String) : List Value :=
  cols.map (fun _ => Value.na)

/-- `df_plot[time_diff > gap_threshold].index`: the timestamps of rows
whose delta to the immediately preceding row strictly exceeds the
threshold (the first row's `diff()` is `NaT` and never selected). -/
def gapStarts : List (Int × List Value) → List Int
  | [] => []
  | [_] => []
  | a :: b :: rest =>
    (if gap_threshold < b.1 - a.1 then [b.1] else []) ++ gapStarts (b :: rest)

/-- The gap-insertion loop (lines 116-121): for each gap start `g`, append
an all-missing row at `g - 1s` and re-sort the index. -/
def gapSegment (s : Series) : Series :=
  { cols := s.cols
    rows := (gapStarts s.rows).foldl
      (fun acc g => sortRows (acc ++ [(g - oneSecond, naRow s.cols)])) s.rows }

/-- Closed form of the insertion loop on a sorted series, following the
spec's description: emit each record in order and place exactly one
all-missing marker, timestamped one second before the later record,
between each adjacent pair whose delta strictly exceeds the threshold. -/
def withMarkers (cols : List String) : List (Int × List Value) → List (Int × List Value)
  | [] => []
  | [a] => [a]
  | a :: b :: rest =>
    a :: ((if gap_threshold < b.1 - a.1 then [(b.1 - oneSecond, naRow cols)] else [])
      ++ withMarkers cols (b :: rest))

/-- Insert an element into a sorted list after every element of
less-or-equal key (the position a stable sort gives an element appended
at the end). -/
def insertTail (x : Int × List Value) : List (Int × List Value) → List (Int × List Value)
  | [] => [x]
  | a :: l => if x.1 < a.1 then x :: a :: l else a :: insertTail x l

/-- The two frame variables of the chart section: the loaded frame `df`
and the plotting copy `df_plot` (line 108: `df_plot = df.copy()`). -/
structure ChartEnv where
  df : Series
  df_plot : Series

/-- Lines 107-121 as a state transformer on the two frame variables: take
the copy, compute the gap positions from it, then run the insertion loop,
each iteration rebinding only `df_plot`. -/
def runChartSection (df : Series) : ChartEnv :=
  let env0 : ChartEnv := { df := df, df_plot := df }
  (gapStarts env0.df_plot.rows).foldl
    (fun env g =>
      { env with
        df_plot :=
          { cols := env.df_plot.cols
            rows := sortRows (env.df_plot.rows ++ [(g - oneSecond, naRow env.df_plot.cols)]) } })
    env0

/-- Bounded adjacent-delta predicate: each record's timestamp exceeds its
immediate predecessor's by at most `bound`. -/
def adjacentLe (bound : Int) : List (Int × List Value) → Prop
  | [] => True
  | [_] => True
  | a :: b :: rest => b.1 - a.1 ≤ bound ∧ adjacentLe bound (b :: rest)

instance adjacentLeDec (bound : Int) : (l : List (Int × List Value)) → Decidable (adjacentLe bound l)
  | [] => isTrue trivial
  | [_] => isTrue trivial
  | a :: b :: rest =>
    letI := adjacentLeDec bound (b :: rest)
    inferInstanceAs (Decidable (b.1 - a.1 ≤ bound ∧ adjacentLe bound (b :: rest)))

/-- The gap-insertion loop, with each concat-and-sort step replaced by its
effect on a sorted accumulator (proved below in
`sortfold_eq_insertMarkers`). -/
def insertMarkers (cols : List String) (gaps : List Int)
    (rows : List (Int × List Value)) : List (Int × List Value) :=
  gaps.foldl (fun acc g => insertTail (g - oneSecond, naRow cols) acc) rows

/-! ### Sorted-insertion lemmas -/

theorem orderedInsert_of_forall_le {a : Int × List Value} {l : List (Int × List Value)}
    (h : ∀ b ∈ l, a.1 ≤ b.1) : List.orderedInsert keyLe a l = a :: l := by
  cases l with
  | nil => rfl
  | cons b t => exact List.orderedInsert_of_le keyLe t (h b (List.mem_cons_self b t))

theorem insertTail_of_forall_lt {x : Int × List Value} {l : List (Int × List Value)}
    (h : ∀ b ∈ l, x.1 < b.1) : insertTail x l = x :: l := by
  cases l with
  | nil => rfl
  | cons b t => simp [insertTail, if_pos (h b (List.mem_cons_self b t))]

theorem mem_insertTail_iff (b x : Int × List Value) :
    ∀ l : List (Int × List Value), (b ∈ insertTail x l ↔ b = x ∨ b ∈ l) := by
  intro l
  induction l with
  | nil => simp [insertTail]
  | cons a l ih =>
    by_cases hc : x.1 < a.1
    · simp only [insertTail, if_pos hc, List.mem_cons, ih]
    · simp only [insertTail, if_neg hc, List.mem_cons, ih]
      tauto

theorem sorted_insertTail (x : Int × List Value) :
    ∀ l : List (Int × List Value), List.Sorted keyLe l →
      List.Sorted keyLe (insertTail x l) := by
  intro l
  induction l with
  | nil => intro _; exact List.sorted_singleton x
  | cons a l ih =>
    intro h
    rcases List.sorted_cons.mp h with ⟨ha, hl⟩
    by_cases hc : x.1 < a.1
    · rw [insertTail, if_pos hc]
      refine List.sorted_cons.mpr ⟨?_, h⟩
      intro b hb
      show x.1 ≤ b.1
      rcases List.mem_cons.mp hb with hb | hb
      · rw [hb]; exact le_of_lt hc
      · exact le_trans (le_of_lt hc) (ha b hb)
    · rw [insertTail, if_neg hc]
      refine List.sorted_cons.mpr ⟨?_, ih hl⟩
      intro b hb
      show a.1 ≤ b.1
      rcases (mem_insertTail_iff b x l).mp hb with hb | hb
      · rw [hb]; exact le_of_not_lt hc
      · exact ha b hb

theorem sortRows_append_singleton (x : Int × List Value) :
    ∀ l : List (Int × List Value), List.Sorted keyLe l →
      sortRows (l ++ [x]) = insertTail x l := by
  intro l
  induction l with
  | nil => intro _; rfl
  | cons a l ih =>
    intro h
    rcases List.sorted_cons.mp h with ⟨ha, hl⟩
    have ih' := ih hl
    simp only [sortRows, List.cons_append, List.insertionSort, List.append_eq] at ih' ⊢
    rw [ih']
    by_cases hc : x.1 < a.1
    · have h1 : insertTail x l = x :: l :=
        insertTail_of_forall_lt (fun b hb => lt_of_lt_of_le hc (ha b hb))
      have h2 : List.orderedInsert keyLe a l = a :: l := orderedInsert_of_forall_le ha
      have hax : ¬ keyLe a x := not_le.mpr hc
      rw [h1, insertTail, if_pos hc, List.orderedInsert, if_neg hax, h2]
    · rw [insertTail, if_neg hc]
      refine orderedInsert_of_forall_le ?_
      intro b hb
      rcases (mem_insertTail_iff b x l).mp hb with hb | hb
      · rw [hb]; exact le_of_not_lt hc
      · exact ha b hb

theorem insertMarkers_cons_ge {cols : List String} {x : Int × List Value} :
    ∀ (gaps : List Int) (rows : List (Int × List Value)),
      (∀ g ∈ gaps, x.1 ≤ g - oneSecond) →
      insertMarkers cols gaps (x :: rows) = x :: insertMarkers cols gaps rows := by
  intro gaps
  induction gaps with
  | nil => intro rows _; rfl
  | cons g gs ih =>
    intro rows h
    have hx : ¬ ((g - oneSecond, naRow cols).1 < x.1) :=
      not_lt.mpr (h g (List.mem_cons_self g gs))
    simp only [insertMarkers, List.foldl_cons]
    rw [show insertTail (g - oneSecond, naRow cols) (x :: rows) =
          x :: insertTail (g - oneSecond, naRow cols) rows from by
        rw [insertTail, if_neg hx]]
    exact ih _ (fun g' hg' => h g' (List.mem_cons_of_mem g hg'))

theorem sorted_insertMarkers {cols : List String} :
    ∀ (gaps : List Int) (rows : List (Int × List Value)),
      List.Sorted keyLe rows → List.Sorted keyLe (insertMarkers cols gaps rows) := by
  intro gaps
  induction gaps with
  | nil => intro rows h; exact h
  | cons g gs ih =>
    intro rows h
    simp only [insertMarkers, List.foldl_cons]
    exact ih _ (sorted_insertTail _ _ h)

theorem sortfold_eq_insertMarkers {cols : List String} :
    ∀ (gaps : List Int) (rows : List (Int × List Value)), List.Sorted keyLe rows →
      gaps.foldl (fun acc g => sortRows (acc ++ [(g - oneSecond, naRow cols)])) rows =
        insertMarkers cols gaps rows := by
  intro gaps
  induction gaps with
  | nil => intro rows _; rfl
  | cons g gs ih =>
    intro rows h
    simp only [List.foldl_cons, insertMarkers]
    rw [sortRows_append_singleton _ _ h]
    exact ih _ (sorted_insertTail _ _ h)

theorem gapStarts_lower {a : Int × List Value} {l : List (Int × List Value)} {g : Int} :
    List.Sorted keyLe (a :: l) → g ∈ gapStarts (a :: l) → a.1 + gap_threshold < g := by
  induction l generalizing a with
  | nil => intro _ hg; simp [gapStarts] at hg
  | cons b rest ih =>
    intro h hg
    rcases List.sorted_cons.mp h with ⟨ha, hl⟩
    have hab : a.1 ≤ b.1 := ha b (List.mem_cons_self b rest)
    simp only [gapStarts, List.mem_append] at hg
    rcases hg with hg | hg
    · by_cases hgap : gap_threshold < b.1 - a.1
      · rw [if_pos hgap] at hg
        simp only [List.mem_singleton] at hg
        omega
      · rw [if_neg hgap] at hg
        simp at hg
    · have hb : b.1 + gap_threshold < g := ih hl hg
      omega

/-- Head of the closed form: `withMarkers` on a nonempty sorted list starts
with the original first record. -/
theorem withMarkers_cons (cols : List String) (b : Int × List Value)
    (rest : List (Int × List Value)) :
    ∃ t, withMarkers cols (b :: rest) = b :: t := by
  cases rest with
  | nil => exact ⟨[], rfl⟩
  | cons c rest' =>
    exact ⟨_, rfl⟩

/-- The insertion loop on a sorted series equals the spec's closed form:
one marker per over-threshold adjacent pair, placed between the pair. -/
theorem insertMarkers_gapStarts (cols : List String) :
    ∀ rows : List (Int × List Value), List.Sorted keyLe rows →
      insertMarkers cols (gapStarts rows) rows = withMarkers cols rows := by
  intro rows
  induction rows with
  | nil => intro _; rfl
  | cons a l ih =>
    intro h
    rcases List.sorted_cons.mp h with ⟨ha, hl⟩
    cases l with
    | nil => rfl
    | cons b rest =>
      have hab : a.1 ≤ b.1 := ha b (List.mem_cons_self b rest)
      have hpass : ∀ g ∈ gapStarts (b :: rest), b.1 ≤ g - oneSecond := by
        intro g hg
        have := gapStarts_lower hl hg
        simp only [gap_threshold] at this
        simp only [oneSecond]
        omega
      have hpassa : ∀ g ∈ gapStarts (b :: rest), a.1 ≤ g - oneSecond :=
        fun g hg => le_trans hab (hpass g hg)
      have ihb := ih hl
      simp only [gapStarts, withMarkers]
      by_cases hgap : gap_threshold < b.1 - a.1
      · rw [if_pos hgap, if_pos hgap]
        have hm1 : ¬ ((b.1 - oneSecond, naRow cols).1 < a.1) := by
          simp only [oneSecond]
          simp only [gap_threshold] at hgap
          omega
        have hm2 : (b.1 - oneSecond, naRow cols).1 < b.1 := by
          simp only [oneSecond]; omega
        have hstep : insertMarkers cols ([b.1] ++ gapStarts (b :: rest)) (a :: b :: rest) =
            insertMarkers cols (gapStarts (b :: rest))
              (a :: (b.1 - oneSecond, naRow cols) :: b :: rest) := by
          simp only [insertMarkers, List.cons_append, List.nil_append, List.foldl_cons]
          rw [insertTail, if_neg hm1, insertTail, if_pos hm2]
        rw [hstep]
        rw [insertMarkers_cons_ge _ _ hpassa]
        rw [insertMarkers_cons_ge _ _ (fun g hg => by
          have := hpass g hg
          simp only [oneSecond] at this ⊢
          omega)]
        rw [ihb]
        simp
      · rw [if_neg hgap, if_neg hgap]
        simp only [List.nil_append]
        rw [insertMarkers_cons_ge _ _ hpassa, ihb]

/-- On a sorted series the gap-insertion loop computes exactly the spec's
closed form, and the result is still sorted. -/
theorem gapSegment_rows (s : Series) (h : List.Sorted keyLe s.rows) :
    (gapSegment s).rows = withMarkers s.cols s.rows ∧
      List.Sorted keyLe (gapSegment s).rows := by
  have h1 : (gapSegment s).rows = insertMarkers s.cols (gapStarts s.rows) s.rows := by
    show (gapStarts s.rows).foldl _ s.rows = _
    exact sortfold_eq_insertMarkers _ _ h
  constructor
  · rw [h1]; exact insertMarkers_gapStarts s.cols s.rows h
  · rw [h1]; exact sorted_insertMarkers _ _ h

/-- After marker insertion no adjacent delta exceeds the threshold any
more, provided every original delta was at most threshold + 1s. -/
theorem gapStarts_withMarkers (cols : List String) :
    ∀ rows : List (Int × List Value), List.Sorted keyLe rows →
      adjacentLe (gap_threshold + oneSecond) rows →
      gapStarts (withMarkers cols rows) = [] := by
  intro rows
  induction rows with
  | nil => intro _ _; rfl
  | cons a l ih =>
    intro h hadj
    cases l with
    | nil => rfl
    | cons b rest =>
      obtain ⟨t, ht⟩ := withMarkers_cons cols b rest
      rcases List.sorted_cons.mp h with ⟨ha, hl⟩
      have hd : b.1 - a.1 ≤ gap_threshold + oneSecond := hadj.1
      have hadj' : adjacentLe (gap_threshold + oneSecond) (b :: rest) := hadj.2
      have hrec : gapStarts (b :: t) = [] := by
        rw [← ht]; exact ih hl hadj'
      by_cases hgap : gap_threshold < b.1 - a.1
      · simp only [withMarkers, if_pos hgap, List.cons_append, List.nil_append]
        rw [ht]
        have hc1 : ¬ gap_threshold < (b.1 - oneSecond, naRow cols).1 - a.1 := by
          simp only [oneSecond] at hd ⊢
          omega
        have hc2 : ¬ gap_threshold < b.1 - (b.1 - oneSecond, naRow cols).1 := by
          simp only [oneSecond, gap_threshold]
          omega
        show (if gap_threshold < (b.1 - oneSecond, naRow cols).1 - a.1 then [(b.1 - oneSecond, naRow cols).1] else []) ++
            gapStarts ((b.1 - oneSecond, naRow cols) :: b :: t) = []
        rw [if_neg hc1, List.nil_append]
        show (if gap_threshold < b.1 - (b.1 - oneSecond, naRow cols).1 then [b.1] else []) ++
            gapStarts (b :: t) = []
        rw [if_neg hc2, List.nil_append, hrec]
      · simp only [withMarkers, if_neg hgap, List.nil_append]
        rw [ht]
        show (if gap_threshold < b.1 - a.1 then [b.1] else []) ++ gapStarts (b :: t) = []
        rw [if_neg hgap, List.nil_append, hrec]

/-- A series without over-threshold deltas passes through the insertion
loop unchanged. -/
theorem gapSegment_of_no_gaps (s : Series) (h : gapStarts s.rows = []) :
    gapSegment s = s := by
  unfold gapSegment
  rw [h]
  rfl

/-- C1: on every sorted observation series, the gap segmenter returns the
series with exactly one all-missing GapMarker, timestamped one second
before the later record, inserted between each temporally adjacent pair
whose delta strictly exceeds the 2-hour threshold, and nothing else
(`withMarkers` is that closed form); the header is unchanged and the
output is ascending, the marker sitting strictly between its pair. -/
theorem gap_insertion_spec (s : Series) (h : List.Sorted keyLe s.rows) :
    (gapSegment s).cols = s.cols ∧
      (gapSegment s).rows = withMarkers s.cols s.rows ∧
      List.Sorted keyLe (gapSegment s).rows :=
  ⟨rfl, (gapSegment_rows s h).1, (gapSegment_rows s h).2⟩

/-- The spec's gap example: records at `T0`, `T0+1h`, `T0+4h`, `T0+5h`
(seconds, `T0 = 0`). -/
def ex1Series : Series :=
  { cols := ["Temp"]
    rows := [(0, [Value.na]), (3600, [Value.na]), (14400, [Value.na]), (18000, [Value.na])] }

/-- C1 witness: on the spec's example exactly one marker appears, at
`T0 + 4h − 1s = 14399`, all-missing, strictly between the 1h and 4h
records. -/
theorem gap_insertion_spec_witness :
    (gapSegment ex1Series).rows =
      [(0, [Value.na]), (3600, [Value.na]), (14399, [Value.na]),
        (14400, [Value.na]), (18000, [Value.na])] :=
  ((gap_insertion_spec ex1Series (by decide)).2.1).trans (by decide)

/-- Two records 4 hours apart: the first application inserts a marker at
`14399`, and a second application sees the new `14399 − 0 = 14399 > 7200`
delta and inserts another marker. -/
def ex4Series : Series :=
  { cols := ["Temp"], rows := [(0, [Value.na]), (14400, [Value.na])] }

/-- C4 counterexample: the gap segmenter's output is not a fixed point;
re-applying it to its own output inserts a further marker. -/
theorem gapSegment_not_idempotent :
    List.Sorted keyLe ex4Series.rows ∧
      (gapSegment ex4Series).rows.length = 3 ∧
      (gapSegment (gapSegment ex4Series)).rows.length = 4 ∧
      gapSegment (gapSegment ex4Series) ≠ gapSegment ex4Series := by
  decide

/-- C4 (amended): a second application of the gap segmenter inserts no
additional marker provided every adjacent delta of the sorted input is at
most the threshold plus one second (so each inserted marker closes its
gap instead of leaving a still-over-threshold residual delta). -/
theorem gapSegment_idempotent_of_bounded (s : Series) (h : List.Sorted keyLe s.rows)
    (hb : adjacentLe (gap_threshold + oneSecond) s.rows) :
    gapSegment (gapSegment s) = gapSegment s := by
  obtain ⟨hrows, _⟩ := gapSegment_rows s h
  apply gapSegment_of_no_gaps
  rw [hrows]
  exact gapStarts_withMarkers s.cols s.rows h hb

/-- Two records 2h + 1s apart: a gap, but of the bounded kind. -/
def ex4wSeries : Series :=
  { cols := ["Temp"], rows := [(0, [Value.na]), (7201, [Value.na])] }

/-- C4 witness: on a series with a 2h + 1s gap, one marker is inserted
and a second application changes nothing. -/
theorem gapSegment_idempotent_of_bounded_witness :
    gapSegment (gapSegment ex4wSeries) = gapSegment ex4wSeries ∧
      (gapSegment ex4wSeries).rows.length = 3 :=
  ⟨gapSegment_idempotent_of_bounded ex4wSeries (by decide) (by decide), by decide⟩

/-- The chart-section fold only ever rebinds `df_plot`; `df` rides along
untouched, and the `df_plot` component is the row-level insertion fold. -/
theorem runChartSection_fold (gaps : List Int) (env : ChartEnv) :
    (gaps.foldl (fun env g =>
        { env with
          df_plot :=
            { cols := env.df_plot.cols
              rows := sortRows (env.df_plot.rows ++ [(g - oneSecond, naRow env.df_plot.cols)]) } })
      env) =
      { df := env.df
        df_plot :=
          { cols := env.df_plot.cols
            rows := gaps.foldl
              (fun acc g => sortRows (acc ++ [(g - oneSecond, naRow env.df_plot.cols)]))
              env.df_plot.rows } } := by
  induction gaps generalizing env with
  | nil =>
    cases env with
    | mk d p => cases p with | mk c r => rfl
  | cons g gs ih =>
    simp only [List.foldl_cons]
    rw [ih]

/-- C9: the gap segmenter never mutates its input: after the chart
section runs, the original `df` is unchanged and still available, and the
plotting frame is the segmented copy. -/
theorem chart_section_no_mutation (df : Series) :
    (runChartSection df).df = df ∧ (runChartSection df).df_plot = gapSegment df := by
  unfold runChartSection
  rw [runChartSection_fold]
  exact ⟨rfl, rfl⟩

/-- C6: the combined date/time text is parsed with the day-first
convention: `"13/04/23 14:05"` parses to 13 April 2023, 14:05 — a valid
timestamp with month 4 and day 13, not a month-first reading. -/
theorem dayfirst_parsing :
    to_datetime "13/04/23 14:05" =
      some { year := 2023, month := 4, day := 13, hour := 14, minute := 5 } ∧
      (to_datetime "13/04/23 14:05").map DateTime.month = some 4 ∧
      (to_datetime "13/04/23 14:05").map DateTime.day = some 13 := by
  decide

/-- C7: whenever the normalized header lacks the `Date` column or the
`Time` column, the pipeline aborts with a schema error and returns no
observation series at all. -/
theorem schema_error_no_series (t : RawTable)
    (h : "Date" ∉ normalizeColumns t.header ∨ "Time" ∉ normalizeColumns t.header) :
    loadTable t = none := by
  have hnot : ¬ ("Date" ∈ normalizeColumns t.header ∧ "Time" ∈ normalizeColumns t.header) := by
    intro hc
    rcases h with h | h
    · exact h hc.1
    · exact h hc.2
  simp only [loadTable]
  rw [if_neg hnot]

/-- C7 witness: a payload lacking a `Time` column produces no series. -/
theorem schema_error_no_series_witness :
    loadTable { header := ["Date", "Temp"], rows := [["13/04/23", "21"]] } = none :=
  schema_error_no_series _ (Or.inr (by decide))

/-- C8: with `Date` and `Time` present the pipeline always returns a
series; its rows are exactly the sorted parsable rows (each keyed by its
mandatory timestamp, unparsable rows dropped without aborting), and when
every row fails to parse the result is a valid empty series — a `some`
outcome, distinguished from the `none` of a schema error. -/
theorem row_drop_and_empty (t : RawTable)
    (hd : "Date" ∈ normalizeColumns t.header)
    (ht : "Time" ∈ normalizeColumns t.header) :
    ∃ s, loadTable t = some s ∧
      s.rows = sortRows (parsedRows (normalizeColumns t.header)
        (coerceTable (normalizeColumns t.header) t.rows)) ∧
      List.Perm s.rows (parsedRows (normalizeColumns t.header)
        (coerceTable (normalizeColumns t.header) t.rows)) ∧
      ((∀ r ∈ coerceTable (normalizeColumns t.header) t.rows,
          to_datetime (combinedText (normalizeColumns t.header) r) = none) →
        s.rows = []) ∧
      loadTable t ≠ none := by
  have hload : loadTable t =
      some { cols := normalizeColumns t.header
             rows := timeIndexBuild (normalizeColumns t.header)
               (coerceTable (normalizeColumns t.header) t.rows) } := by
    simp only [loadTable]
    rw [if_pos ⟨hd, ht⟩]
  refine ⟨_, hload, rfl, List.perm_insertionSort keyLe _, ?_, by rw [hload]; simp⟩
  intro hall
  have hparsed : parsedRows (normalizeColumns t.header)
      (coerceTable (normalizeColumns t.header) t.rows) = [] := by
    refine List.filterMap_eq_nil_iff.mpr ?_
    intro r hr
    rw [rowKey, hall r hr]
    rfl
  show sortRows _ = []
  rw [hparsed]
  rfl

/-- C8 witness: a payload whose single row's date/time text is malformed
yields `some` of an empty series. -/
theorem row_drop_and_empty_witness :
    ∃ s, loadTable { header := ["Date", "Time", "Temp"], rows := [["xx", "yy", "--"]] } = some s ∧
      s.rows = [] := by
  obtain ⟨s, h1, _, _, h4, _⟩ :=
    row_drop_and_empty { header := ["Date", "Time", "Temp"], rows := [["xx", "yy", "--"]] }
      (by decide) (by decide)
  exact ⟨s, h1, h4 (by decide)⟩

/-- C10: the load function never propagates an exception: whatever the
payload, either the body raised (and the function returns `none`) or the
body's result is returned as-is — there is no third, unwinding outcome. -/
theorem load_never_raises (text : String) :
    (∃ e, load_body text = Except.error e ∧ load_data_from_github text = none) ∨
      (∃ r, load_body text = Except.ok r ∧ load_data_from_github text = r) := by
  cases h : load_body text with
  | error e =>
    left
    exact ⟨e, rfl, by unfold load_data_from_github; rw [h]⟩
  | ok r =>
    right
    exact ⟨r, rfl, by unfold load_data_from_github; rw [h]⟩

/-- C5 counterexample: on the allow-listed `Temp` column the cell
`"inf"` coerces to positive infinity — a number that is neither finite
nor missing — so "finite floating-point number or missing" fails. -/
theorem coercion_inf_not_finite :
    coerceRow ["Date", "Time", "Temp"] ["13/04/23", "14:05", "inf"] =
      [Value.str "13/04/23", Value.str "14:05", Value.num NumVal.pinf] ∧
      finite_or_missingB (Value.num NumVal.pinf) = false := by
  decide

/-- C5 (amended): after coercion, every allow-listed cell is a parsed
floating-point number (finite or infinite) or explicitly missing — never
a raw string — and the per-cell substitution is a total function (it never
raises); unparsable cells like `"--"` or empty text become missing. -/
theorem coercion_never_string (cols : List String) (rows : List (List String)) :
    (∀ row ∈ coerceTable cols rows, ∀ i : Nat, i < cols.length →
      cols.getD i "" ∈ numeric_cols →
        (∃ v, row.getD i Value.na = Value.num v) ∨ row.getD i Value.na = Value.na) ∧
      to_numeric_cell "--" = none ∧ to_numeric_cell "" = none := by
  refine ⟨?_, by decide, by decide⟩
  intro row hrow i hi hnum
  obtain ⟨r, _, rfl⟩ := List.mem_map.mp hrow
  have hcell : (coerceRow cols r).getD i Value.na = coerceCell (cols.getD i "") (r.getD i "") := by
    rw [coerceRow, List.getD_eq_getElem?_getD, List.getElem?_map, List.getElem?_range hi]
    rfl
  rw [hcell, coerceCell, if_pos hnum]
  cases to_numeric_cell (r.getD i "") with
  | some v => exact Or.inl ⟨v, rfl⟩
  | none => exact Or.inr rfl

/-- C5 witness: the `Temp` cell `"--"` of a one-column table coerces to a
number-or-missing cell (here: missing). -/
theorem coercion_never_string_witness :
    ((∃ v, (coerceRow ["Temp"] ["--"]).getD 0 Value.na = Value.num v) ∨
      (coerceRow ["Temp"] ["--"]).getD 0 Value.na = Value.na) ∧
      to_numeric_cell "--" = none :=
  ⟨(coercion_never_string ["Temp"] [["--"]]).1 (coerceRow ["Temp"] ["--"]) (by decide)
      0 (by decide) (by decide),
    (coercion_never_string ["Temp"] [["--"]]).2.1⟩

/-! ### Determinacy of the index sort on distinct timestamps -/

theorem sortRows_contract : sort_contract sortRows :=
  fun l => ⟨List.sorted_insertionSort keyLe l, List.perm_insertionSort keyLe l⟩

theorem sorted_perm_nodup_keys_eq :
    ∀ (l₁ l₂ : List (Int × List Value)), List.Perm l₁ l₂ →
      List.Sorted keyLe l₁ → List.Sorted keyLe l₂ →
      (l₁.map Prod.fst).Nodup → l₁ = l₂ := by
  intro l₁
  induction l₁ with
  | nil =>
    intro l₂ hp _ _ _
    exact (hp.symm.eq_nil).symm ▸ rfl
  | cons a t₁ ih =>
    intro l₂ hp h₁ h₂ hnd
    cases l₂ with
    | nil => exact absurd hp.eq_nil (by simp)
    | cons b t₂ =>
      rcases List.sorted_cons.mp h₁ with ⟨ha, ht₁⟩
      rcases List.sorted_cons.mp h₂ with ⟨hb, ht₂⟩
      rw [List.map_cons] at hnd
      rcases List.nodup_cons.mp hnd with ⟨hak, hndt⟩
      have hab : a = b := by
        have hamem : a ∈ b :: t₂ := hp.mem_iff.mp (List.mem_cons_self a t₁)
        have hbmem : b ∈ a :: t₁ := hp.symm.mem_iff.mp (List.mem_cons_self b t₂)
        rcases List.mem_cons.mp hamem with h | hat₂
        · exact h
        rcases List.mem_cons.mp hbmem with h | hbt₁
        · exact h.symm
        have h1 : a.1 ≤ b.1 := ha b hbt₁
        have h2 : b.1 ≤ a.1 := hb a hat₂
        have hkey : b.1 = a.1 := le_antisymm h2 h1
        exact absurd (hkey ▸ List.mem_map_of_mem Prod.fst hbt₁) hak
      subst hab
      have ht : t₁ = t₂ := ih t₂ (hp.cons_inv) ht₁ ht₂ hndt
      rw [ht]

/-- C3 (amended): for every sort honouring `sort_index`'s contract (a
sorted permutation of the rows — all its default quicksort promises), the
built series' timestamp sequence is non-decreasing, and rebuilding from
the reversed row table yields the identical series provided the parsed
timestamps are pairwise distinct.  No tie-order (stability) guarantee is
asserted: the program's sort may order tied timestamps either way, and on
tied rows stability and input-order independence exclude each other
anyway (see the counterexample).  The pipeline's `timeIndexBuild` is the
contract-honouring `sortRows` applied to the parsed surviving rows. -/
theorem time_index_spec (f : List (Int × List Value) → List (Int × List Value))
    (hf : sort_contract f) (cols : List String) (rows : List (List Value)) :
    List.Sorted keyLe (f (parsedRows cols rows)) ∧
      (((parsedRows cols rows).map Prod.fst).Nodup →
        f (parsedRows cols rows.reverse) = f (parsedRows cols rows)) ∧
      sort_contract sortRows ∧
      timeIndexBuild cols rows = sortRows (parsedRows cols rows) := by
  refine ⟨(hf _).1, ?_, sortRows_contract, rfl⟩
  intro hnd
  have hrev : parsedRows cols rows.reverse = (parsedRows cols rows).reverse :=
    List.filterMap_reverse _ _
  have hperm : List.Perm (f (parsedRows cols rows.reverse)) (f (parsedRows cols rows)) := by
    have h1 := (hf (parsedRows cols rows.reverse)).2
    have h2 := (hf (parsedRows cols rows)).2
    refine h1.trans ?_
    rw [hrev]
    exact (List.reverse_perm _).trans h2.symm
  have hnd' : ((f (parsedRows cols rows.reverse)).map Prod.fst).Nodup := by
    have hp2 : List.Perm ((f (parsedRows cols rows.reverse)).map Prod.fst)
        ((parsedRows cols rows).map Prod.fst) :=
      (hperm.trans (hf (parsedRows cols rows)).2).map Prod.fst
    exact hp2.nodup_iff.mpr hnd
  exact sorted_perm_nodup_keys_eq _ _ hperm (hf _).1 (hf _).1 hnd'

/-- C3 counterexample: a pre-sorted table whose two rows share one
timestamp (identical `Date`/`Time`, different `Note`).  Rebuilding from
the reversed table returns the tied rows in reversed order, so the result
differs from the series built from the original order: the rebuild is not
input-order independent. -/
theorem time_index_reverse_counterexample :
    List.Sorted keyLe (parsedRows ["Date", "Time", "Note"]
      [[Value.str "13/04/23", Value.str "14:05", Value.str "x"],
        [Value.str "13/04/23", Value.str "14:05", Value.str "y"]]) ∧
      timeIndexBuild ["Date", "Time", "Note"]
          [[Value.str "13/04/23", Value.str "14:05", Value.str "x"],
            [Value.str "13/04/23", Value.str "14:05", Value.str "y"]].reverse ≠
        timeIndexBuild ["Date", "Time", "Note"]
          [[Value.str "13/04/23", Value.str "14:05", Value.str "x"],
            [Value.str "13/04/23", Value.str "14:05", Value.str "y"]] := by
  decide

/-- C3 witness: with two distinct timestamps, rebuilding from the
reversed table gives the identical series. -/
theorem time_index_spec_witness :
    timeIndexBuild ["Date", "Time", "Note"]
        [[Value.str "13/04/23", Value.str "14:05", Value.str "x"],
          [Value.str "13/04/23", Value.str "15:05", Value.str "y"]].reverse =
      timeIndexBuild ["Date", "Time", "Note"]
        [[Value.str "13/04/23", Value.str "14:05", Value.str "x"],
          [Value.str "13/04/23", Value.str "15:05", Value.str "y"]] :=
  (time_index_spec sortRows sortRows_contract _ _).2.1 (by decide)

/-! ### Decimal numeral facts

The deduplicator's synthesized suffix is `"_" ++ Nat.repr n` (Python
`f"{col}_{cur_count}"`).  To reason about collisions we need that decimal
numerals contain no underscore and that `Nat.repr` is injective. -/

theorem toDigitsCore_succ (b fuel n : Nat) (ds : List Char) :
    Nat.toDigitsCore b (fuel + 1) n ds =
      if n / b = 0 then Nat.digitChar (n % b) :: ds
      else Nat.toDigitsCore b fuel (n / b) (Nat.digitChar (n % b) :: ds) := by
  simp [Nat.toDigitsCore]

theorem digitChar_lt10_ne_underscore : ∀ m : Nat, m < 10 → Nat.digitChar m ≠ '_' := by
  decide

theorem toDigitsCore_no_underscore :
    ∀ (fuel n : Nat) (acc : List Char), '_' ∉ acc →
      '_' ∉ Nat.toDigitsCore 10 fuel n acc := by
  intro fuel
  induction fuel with
  | zero => intro n acc h; simpa [Nat.toDigitsCore] using h
  | succ f ih =>
    intro n acc h
    have hd : Nat.digitChar (n % 10) ≠ '_' :=
      digitChar_lt10_ne_underscore _ (Nat.mod_lt n (by omega))
    rw [toDigitsCore_succ]
    by_cases h0 : n / 10 = 0
    · rw [if_pos h0]
      intro hm
      rcases List.mem_cons.mp hm with hm | hm
      · exact hd hm.symm
      · exact h hm
    · rw [if_neg h0]
      refine ih (n / 10) _ ?_
      intro hm
      rcases List.mem_cons.mp hm with hm | hm
      · exact hd hm.symm
      · exact h hm

theorem repr_no_underscore (n : Nat) : '_' ∉ (Nat.repr n).data :=
  toDigitsCore_no_underscore (n + 1) n [] (by simp)

theorem toDigitsCore_shift :
    ∀ (fuel n : Nat) (acc : List Char),
      Nat.toDigitsCore 10 fuel n acc = Nat.toDigitsCore 10 fuel n [] ++ acc := by
  intro fuel
  induction fuel with
  | zero => intro n acc; simp [Nat.toDigitsCore]
  | succ f ih =>
    intro n acc
    rw [toDigitsCore_succ, toDigitsCore_succ]
    by_cases h0 : n / 10 = 0
    · rw [if_pos h0, if_pos h0]
      rfl
    · rw [if_neg h0, if_neg h0, ih (n / 10) (Nat.digitChar (n % 10) :: acc),
        ih (n / 10) [Nat.digitChar (n % 10)]]
      simp

theorem toDigitsCore_fuel :
    ∀ (n f₁ f₂ : Nat), n < f₁ → n < f₂ →
      Nat.toDigitsCore 10 f₁ n [] = Nat.toDigitsCore 10 f₂ n [] := by
  intro n
  induction n using Nat.strong_induction_on with
  | _ n ih =>
    intro f₁ f₂ h₁ h₂
    cases f₁ with
    | zero => omega
    | succ g₁ =>
      cases f₂ with
      | zero => omega
      | succ g₂ =>
        rw [toDigitsCore_succ, toDigitsCore_succ]
        by_cases h0 : n / 10 = 0
        · rw [if_pos h0, if_pos h0]
        · rw [if_neg h0, if_neg h0]
          have h10 : 10 ≤ n := by
            by_contra hlt
            exact h0 (Nat.div_eq_of_lt (by omega))
          have hlt : n / 10 < n := Nat.div_lt_self (by omega) (by omega)
          rw [toDigitsCore_shift g₁, toDigitsCore_shift g₂,
            ih (n / 10) hlt g₁ g₂ (by omega) (by omega)]

theorem digitsToNat_append_digit (xs : List Char) (c : Char) :
    digitsToNat (xs ++ [c]) = 10 * digitsToNat xs + (c.toNat - 48) := by
  unfold digitsToNat
  rw [List.foldl_append]
  rfl

theorem digitsToNat_digitChar : ∀ m : Nat, m < 10 →
    (Nat.digitChar m).toNat - 48 = m := by
  decide

theorem digitsToNat_toDigits : ∀ n : Nat, digitsToNat (Nat.toDigits 10 n) = n := by
  intro n
  induction n using Nat.strong_induction_on with
  | _ n ih =>
    show digitsToNat (Nat.toDigitsCore 10 (n + 1) n []) = n
    rw [toDigitsCore_succ]
    by_cases h0 : n / 10 = 0
    · rw [if_pos h0]
      have hn : n < 10 := by
        by_contra hge
        rw [Nat.div_eq_sub_div (by omega) (by omega)] at h0
        omega
      rw [Nat.mod_eq_of_lt hn]
      exact (by decide : ∀ m : Nat, m < 10 → digitsToNat [Nat.digitChar m] = m) n hn
    · rw [if_neg h0]
      have h10 : 10 ≤ n := by
        by_contra hlt
        exact h0 (Nat.div_eq_of_lt (by omega))
      have hlt : n / 10 < n := Nat.div_lt_self (by omega) (by omega)
      rw [toDigitsCore_shift, toDigitsCore_fuel (n / 10) n (n / 10 + 1) hlt (by omega)]
      rw [show Nat.toDigitsCore 10 (n / 10 + 1) (n / 10) [] = Nat.toDigits 10 (n / 10) from rfl]
      rw [digitsToNat_append_digit, ih (n / 10) hlt,
        digitsToNat_digitChar _ (Nat.mod_lt n (by omega))]
      omega

theorem repr_injective {m n : Nat} (h : Nat.repr m = Nat.repr n) : m = n := by
  have hdata : Nat.toDigits 10 m = Nat.toDigits 10 n := congrArg String.data h
  have h1 := digitsToNat_toDigits m
  rw [hdata, digitsToNat_toDigits n] at h1
  exact h1.symm

theorem string_data_inj {a b : String} (h : a.data = b.data) : a = b := by
  cases a
  cases b
  exact congrArg String.mk h

theorem append_underscore_inj :
    ∀ (a b x y : List Char), '_' ∉ x → '_' ∉ y →
      a ++ '_' :: x = b ++ '_' :: y → a = b ∧ x = y := by
  intro a
  induction a with
  | nil =>
    intro b x y hx hy h
    cases b with
    | nil => simpa using h
    | cons b' bt =>
      exfalso
      simp only [List.nil_append, List.cons_append, List.cons.injEq] at h
      exact hx (h.2 ▸ List.mem_append_right bt (List.mem_cons_self '_' y))
  | cons a' at' ih =>
    intro b x y hx hy h
    cases b with
    | nil =>
      exfalso
      simp only [List.nil_append, List.cons_append, List.cons.injEq] at h
      exact hy (h.2.symm ▸ List.mem_append_right at' (List.mem_cons_self '_' x))
    | cons b' bt =>
      simp only [List.cons_append, List.cons.injEq] at h
      obtain ⟨hab, hxy⟩ := ih bt x y hx hy h.2
      exact ⟨by rw [h.1, hab], hxy⟩

/-- Two suffixed labels coincide only when base labels and counters
coincide: the counter numeral contains no underscore, so the split at the
last underscore is unambiguous. -/
theorem suffixed_label_inj {c d : String} {m k : Nat}
    (h : c ++ "_" ++ Nat.repr m = d ++ "_" ++ Nat.repr k) : c = d ∧ m = k := by
  have hdata : c.data ++ '_' :: (Nat.repr m).data = d.data ++ '_' :: (Nat.repr k).data := by
    have := congrArg String.data h
    simpa [String.data_append] using this
  obtain ⟨h1, h2⟩ := append_underscore_inj c.data d.data _ _
    (repr_no_underscore m) (repr_no_underscore k) hdata
  exact ⟨string_data_inj h1, repr_injective (string_data_inj h2)⟩

/-! ### Deduplicator properties -/

theorem dedup_go_length : ∀ (l seen : List String), (dedup_go seen l).length = l.length := by
  intro l
  induction l with
  | nil => intro seen; rfl
  | cons c rest ih =>
    intro seen
    simp only [dedup_go, List.length_cons, ih]

theorem dedup_go_firstOcc :
    ∀ (l seen : List String) (i : Nat),
      (∀ c, l[i]? = some c → c ∉ seen ∧ ∀ j < i, l[j]? ≠ some c) →
      (dedup_go seen l)[i]? = l[i]? := by
  intro l
  induction l with
  | nil => intro seen i _; rfl
  | cons c rest ih =>
    intro seen i h
    cases i with
    | zero =>
      have hc := h c (by simp)
      have hcount : seen.count c = 0 := List.count_eq_zero.mpr hc.1
      simp only [dedup_go, List.getElem?_cons_zero, hcount, if_pos]
    | succ i =>
      simp only [dedup_go, List.getElem?_cons_succ]
      refine ih (seen ++ [c]) i ?_
      intro c' hc'
      have h' := h c' (by simpa using hc')
      refine ⟨?_, ?_⟩
      · intro hmem
        rcases List.mem_append.mp hmem with hmem | hmem
        · exact h'.1 hmem
        · have hcc : c = c' := by
            have := hmem
            simp at this
            exact this.symm
          exact h'.2 0 (Nat.succ_pos i) (by simp [hcc])
      · intro j hj hcon
        exact h'.2 (j + 1) (by omega) (by simpa using hcon)

theorem dedup_go_mem :
    ∀ (l seen : List String) (x : String), x ∈ dedup_go seen l →
      ∃ c ∈ l, ∃ k : Nat, seen.count c ≤ k ∧ k < (seen ++ l).count c ∧
        x = (if k = 0 then c else c ++ "_" ++ Nat.repr k) := by
  intro l
  induction l with
  | nil => intro seen x hx; simp [dedup_go] at hx
  | cons c rest ih =>
    intro seen x hx
    simp only [dedup_go] at hx
    rcases List.mem_cons.mp hx with hx | hx
    · refine ⟨c, List.mem_cons_self c rest, seen.count c, le_refl _, ?_, hx.symm ▸ rfl⟩
      rw [List.count_append, List.count_cons_self]
      omega
    · obtain ⟨d, hd, k, hk1, hk2, hx⟩ := ih (seen ++ [c]) x hx
      refine ⟨d, List.mem_cons_of_mem c hd, k, ?_, ?_, hx⟩
      · refine le_trans ?_ hk1
        rw [List.count_append]
        omega
      · have heq : (seen ++ [c]) ++ rest = seen ++ c :: rest := by
          rw [List.append_assoc, List.singleton_append]
        rw [heq] at hk2
        exact hk2

/-- The deduplicator's output has no duplicate labels, provided no label
spells another label with a synthesized suffix attached. -/
theorem dedup_go_nodup :
    ∀ (l seen : List String),
      (∀ c ∈ seen ++ l, ∀ d ∈ seen ++ l, ∀ k : Nat, 0 < k → k ≤ (seen ++ l).length →
        c ≠ d ++ "_" ++ Nat.repr k) →
      (dedup_go seen l).Nodup := by
  intro l
  induction l with
  | nil => intro seen _; exact List.nodup_nil
  | cons c rest ih =>
    intro seen hsf
    have hshuffle : (seen ++ [c]) ++ rest = seen ++ c :: rest := by
      rw [List.append_assoc, List.singleton_append]
    simp only [dedup_go]
    refine List.nodup_cons.mpr ⟨?_, ih (seen ++ [c]) (by rw [hshuffle]; exact hsf)⟩
    intro hmem
    obtain ⟨d, hd, k, hk1, hk2, hx⟩ := dedup_go_mem rest (seen ++ [c]) _ hmem
    rw [hshuffle] at hk2
    have hcmem : c ∈ seen ++ c :: rest := List.mem_append_right seen (List.mem_cons_self c rest)
    have hdmem : d ∈ seen ++ c :: rest :=
      List.mem_append_right seen (List.mem_cons_of_mem c hd)
    have hkbound : k ≤ (seen ++ c :: rest).length :=
      le_of_lt (lt_of_lt_of_le hk2 (List.count_le_length d _))
    have hkc1 : (seen ++ [c]).count c = seen.count c + 1 := by
      rw [List.count_append]
      simp
    by_cases hm : seen.count c = 0
    · rw [if_pos hm] at hx
      by_cases hk : k = 0
      · rw [if_pos hk] at hx
        rw [← hx] at hk1
        omega
      · rw [if_neg hk] at hx
        exact hsf c hcmem d hdmem k (by omega) hkbound hx
    · rw [if_neg hm] at hx
      by_cases hk : k = 0
      · rw [if_pos hk] at hx
        have hmbound : seen.count c ≤ (seen ++ c :: rest).length := by
          have h1 : seen.count c < (seen ++ c :: rest).count c := by
            rw [List.count_append, List.count_cons_self]
            omega
          exact le_of_lt (lt_of_lt_of_le h1 (List.count_le_length c _))
        exact hsf d hdmem c hcmem (seen.count c) (by omega) hmbound hx.symm
      · rw [if_neg hk] at hx
        obtain ⟨hcd, hmk⟩ := suffixed_label_inj hx
        rw [← hcd, hkc1] at hk1
        omega

instance (l : List String) : Decidable (suffix_free l) :=
  inferInstanceAs (Decidable (∀ c ∈ l, ∀ d ∈ l, ∀ n ∈ List.range (l.length + 1),
    0 < n → c ≠ d ++ "_" ++ Nat.repr n))

/-- C2 (amended): the column normalizer preserves the length of the label
sequence and the left-to-right position of each cleaned label's first
occurrence; its output has zero duplicate values provided no cleaned
label collides with a synthesized suffixed form of another cleaned label
(the deduplicator's documented limitation). -/
theorem column_normalizer_spec (cols : List String) :
    (normalizeColumns cols).length = cols.length ∧
      (∀ i : Nat,
        (∀ j < i, (cols.map clean_column)[j]? ≠ (cols.map clean_column)[i]?) →
        (normalizeColumns cols)[i]? = (cols.map clean_column)[i]?) ∧
      (suffix_free (cols.map clean_column) → (normalizeColumns cols).Nodup) := by
  refine ⟨?_, ?_, ?_⟩
  · show (dedup_go [] (cols.map clean_column)).length = cols.length
    rw [dedup_go_length, List.length_map]
  · intro i h
    refine dedup_go_firstOcc (cols.map clean_column) [] i ?_
    intro c hc
    refine ⟨by simp, ?_⟩
    intro j hj hcon
    exact h j hj (hcon.trans hc.symm)
  · intro hsf
    refine dedup_go_nodup (cols.map clean_column) [] ?_
    intro c hc d hd k hk hkb
    simp only [List.nil_append] at hc hd hkb
    exact hsf c hc d hd k (List.mem_range.mpr (by omega)) hk

/-- C2 counterexample: an input whose genuine label `"A_1"` collides with
the suffix synthesized for the repeated label `"A"`: the output contains
`"A_1"` twice, so the normalizer does not guarantee zero duplicates. -/
theorem column_normalizer_duplicate :
    normalizeColumns ["A_1", "A", "A"] = ["A_1", "A", "A_1"] ∧
      ¬ (normalizeColumns ["A_1", "A", "A"]).Nodup := by
  decide

/-- C2 witness: on the spec's example the output has the input's length,
keeps first occurrences in place, suffixes the repeat, and is
duplicate-free. -/
theorem column_normalizer_spec_witness :
    (normalizeColumns ["A", "B", "A"]).Nodup ∧
      normalizeColumns ["A", "B", "A"] = ["A", "B", "A_1"] ∧
      (normalizeColumns ["A", "B", "A"]).length = 3 :=
  ⟨(column_normalizer_spec ["A", "B", "A"]).2.2 (by decide), by decide, by decide⟩
